import Mathlib

/-!
Verification development for the kmux pod-session reconcilers.

The definitions below are shallow embeddings of the Go sources:
* `pfProcessEvent`, `pfStep` — the port-forward reconciler
  (src/cmd/port_forward.go, `portForwardCmd.RunE` and `handleForwardPod`);
* `logProcessEvent`, `logStep`, `spawnGo` — the log-follow reconciler
  (src/unnamed/part_001, `Logger.Log` and `Logger.handlePod`);
* `outputLine` — the per-line filter pipeline (`Logger.outputLog`);
* `handleForwardPodBody`, `handleForwardPodBodyOld` — the observable effects
  of the forwarding session bodies (src/cmd/port_forward.go lines 134-159 and
  src/unnamed/part_000 lines 252-266).

Concurrency is modelled as a small-step interleaving semantics: the event loop
is a single sequential consumer (one `.event` step per received event), and the
per-session goroutines contribute their own steps (`.register`, `.finish`),
which may interleave with event consumption in any order.
-/

set_option autoImplicit false

namespace Kmux

/-- Pod lifecycle phase, mirroring the `k8s.io/api/core/v1` PodPhase values the
source inspects (`PodPending`, `PodRunning`, `PodSucceeded`, `PodFailed`,
`PodUnknown`). -/
inductive PodPhase
  | pending
  | running
  | succeeded
  | failed
  | unknown
deriving DecidableEq

/-- Watch event kind, mirroring `k8s.io/apimachinery/pkg/watch` event types
used by the source (`Added`, `Modified`, `Deleted`, `Error`). -/
inductive EventKind
  | added
  | modified
  | deleted
  | error
deriving DecidableEq

/-- Immutable pod snapshot carried by a watch event: UID, phase, and container
names (the concatenation `append(pod.Spec.InitContainers, pod.Spec.Containers...)`
iterated by `Logger.handlePod`; the port-forward reconciler does not look at
containers). -/
structure PodRef where
  uid : Nat
  phase : PodPhase
  containers : List String
deriving DecidableEq

/-- Object carried by a watch event: the type assertion
`event.Object.(*v1.Pod)` either yields a pod or fails. -/
inductive EventObj
  | pod (p : PodRef)
  | notPod
deriving DecidableEq

/-- One pod lifecycle event as received from the watch stream. -/
structure Event where
  kind : EventKind
  obj : EventObj
deriving DecidableEq

/-! ### Association-list model of `sync.Map`

Both reconcilers key their tracking map by pod UID (here a `Nat`); the value is
the identifier of a stop channel (port-forward) or of the session holding the
stored cancel function (log). -/

/-- Model of `sync.Map.Load`. -/
def lookupA : List (Nat × Nat) → Nat → Option Nat
  | [], _ => none
  | kv :: rest, k => if kv.1 = k then some kv.2 else lookupA rest k

/-- Model of `sync.Map.Delete`: removes every binding of the key. -/
def eraseA (l : List (Nat × Nat)) (k : Nat) : List (Nat × Nat) :=
  l.filter (fun kv => kv.1 != k)

/-- Model of `sync.Map.Store`: the new binding replaces any previous one. -/
def insertA (l : List (Nat × Nat)) (k : Nat) (v : Nat) : List (Nat × Nat) :=
  (k, v) :: eraseA l k

/-! ### Port-forward reconciler (src/cmd/port_forward.go) -/

/-- One port-forward session goroutine spawned by `handleForwardPod`; its `id`
also identifies its stop channel (`stopChan` is created together with the
session and stored under the pod UID). -/
structure PFSession where
  id : Nat
  uid : Nat
  finished : Bool
deriving DecidableEq

/-- Position of a reconciler's straight-line code: consuming events from the
watch channel, blocked in `Wait` after the loop, or returned. -/
inductive RPhase
  | looping
  | waiting
  | returned
deriving DecidableEq

/-- State of the port-forward reconciler together with its spawned sessions.
`tracked` is the `activeForwarding` map (UID to stop-channel id), `closedChans`
the set of closed stop channels, `errReports` the ids of sessions whose error
was reported via `kube.Err`, and `panicked` records a `close` of an
already-closed channel (a Go runtime panic). -/
structure PFState where
  events : List Event
  tracked : List (Nat × Nat)
  closedChans : List Nat
  sessions : List PFSession
  errReports : List Nat
  nextId : Nat
  panicked : Bool
  phase : RPhase
deriving DecidableEq

/-- Embedding of one iteration of the event loop in `portForwardCmd.RunE`
(src/cmd/port_forward.go lines 96-116), including the synchronous prefix of
`handleForwardPod` (lines 135-136: make stop channel, `Store` it under the pod
UID, spawn the forwarding goroutine).  Closing an already-closed stop channel
sets `panicked`, which is what Go's `close` does on a closed channel. -/
def pfProcessEvent (s : PFState) (e : Event) : PFState :=
  match e.obj with
  | .notPod => s
  | .pod p =>
    let lookup := lookupA s.tracked p.uid
    if e.kind = .deleted ∨ p.phase = .succeeded ∨ p.phase = .failed then
      match lookup with
      | some ch =>
        if ch ∈ s.closedChans then { s with panicked := true }
        else { s with closedChans := ch :: s.closedChans }
      | none => s
    else if lookup.isSome ∨ ¬p.phase = .running then s
    else
      { s with
          tracked := insertA s.tracked p.uid s.nextId,
          sessions := s.sessions ++ [⟨s.nextId, p.uid, false⟩],
          nextId := s.nextId + 1 }

/-- Interleaving steps of the port-forward reconciler. -/
inductive PFStep
  | event
  | finish (sid : Nat) (failed : Bool)
  | teardown
  | ret
deriving DecidableEq

/-- Predicate selecting the not-yet-finished session with the given id. -/
def pfFinishPred (sid : Nat) (x : PFSession) : Bool :=
  x.id == sid && !x.finished

/-- Small-step semantics of the port-forward reconciler.

* `.event` — the loop body (`pfProcessEvent`) consumes the next event; the loop
  is the single sequential consumer of the watch channel.
* `.finish sid failed` — the goroutine of session `sid` returns: it may report
  a port-forward error (`kube.Err`, line 156) and its
  `defer activeForwarding.Delete(pod.UID)` (line 139) removes the UID entry.
* `.teardown` — after the loop ends, `activeForwarding.Range` closes every
  still-tracked stop channel (lines 118-121); closing an already-closed channel
  panics.
* `.ret` — `forwarding.Wait()` (line 123) lets the call return `nil` only once
  every spawned session body has completed.

The `.finish`/`.ret` interleaving rules are modelled from the spec: the
`pkg/concurrent` package (`Simple.Go` / `Simple.Wait`) is not under src; the
spec states that session bodies run concurrently with the consumer loop and
that the group's wait-for-all is the only exit path.  After a panic the process
is dead, so every step is a no-op. -/
def pfStep (s : PFState) : PFStep → PFState
  | .event =>
    if s.panicked then s
    else if s.phase = .looping then
      match s.events with
      | [] => s
      | e :: rest => pfProcessEvent { s with events := rest } e
    else s
  | .finish sid failed =>
    if s.panicked then s
    else
      match s.sessions.find? (pfFinishPred sid) with
      | none => s
      | some sess =>
        { s with
            sessions :=
              s.sessions.map (fun x => if x.id = sid then { x with finished := true } else x),
            tracked := eraseA s.tracked sess.uid,
            errReports := if failed then s.errReports ++ [sid] else s.errReports }
  | .teardown =>
    if s.panicked then s
    else if s.phase = .looping ∧ s.events = [] then
      if s.tracked.any (fun kv => s.closedChans.contains kv.2) then
        { s with panicked := true }
      else
        { s with
            closedChans := s.tracked.map Prod.snd ++ s.closedChans,
            phase := .waiting }
    else s
  | .ret =>
    if s.panicked then s
    else if s.phase = .waiting ∧ s.sessions.all (·.finished) then { s with phase := .returned }
    else s

/-- A run of the port-forward reconciler: an arbitrary interleaving of steps. -/
def pfRun (s : PFState) (steps : List PFStep) : PFState :=
  steps.foldl pfStep s

/-- Initial reconciler state for a given stream of events. -/
def pfInit (events : List Event) : PFState :=
  ⟨events, [], [], [], [], 0, false, .looping⟩

/-! ### Log-follow reconciler (src/unnamed/part_001) -/

/-- Status of a log session goroutine: spawned but not yet scheduled,
streaming (a follow session that has executed its `Store`), or finished. -/
inductive SessStatus
  | spawned
  | streaming
  | finished
deriving DecidableEq

/-- One goroutine spawned by `Logger.handlePod` for a selected container.
`follow` records the captured pod's phase check (`pod.Status.Phase ==
v1.PodRunning`): a follow session streams and registers its cancel function; a
non-follow session performs one bounded `logPod` read and never registers.
`cancelled` is set when the loop invokes the stored cancel function. -/
structure LogSession where
  id : Nat
  uid : Nat
  follow : Bool
  status : SessStatus
  cancelled : Bool
deriving DecidableEq

/-- Configuration of the logger that the reconciliation path depends on:
`selected` is `Logger.isContainerSelected` (the container-name regexp, or
always-true when unset) and `dryRun` the dry-run flag. -/
structure LogCfg where
  selected : String → Bool
  dryRun : Bool

/-- State of the log reconciler: `tracked` is the `activeStreams` map (UID to
the session id whose cancel function is stored). -/
structure LState where
  events : List Event
  tracked : List (Nat × Nat)
  sessions : List LogSession
  errReports : List Nat
  nextId : Nat
  phase : RPhase
deriving DecidableEq

/-- Embedding of the loop body of `Logger.handlePod` (part_001 lines 130-156):
one goroutine per selected container; under dry-run only an informational line
is printed.  `follow` is the captured `pod.Status.Phase == v1.PodRunning`. -/
def spawnGo (cfg : LogCfg) (uid : Nat) (follow : Bool) : List String → LState → LState
  | [], s => s
  | c :: cs, s =>
    if cfg.selected c then
      if cfg.dryRun then spawnGo cfg uid follow cs s
      else
        spawnGo cfg uid follow cs
          { s with
              sessions := s.sessions ++ [⟨s.nextId, uid, follow, .spawned, false⟩],
              nextId := s.nextId + 1 }
    else spawnGo cfg uid follow cs s

/-- `Logger.handlePod` applied to a pod snapshot. -/
def spawnSessions (cfg : LogCfg) (s : LState) (p : PodRef) : LState :=
  spawnGo cfg p.uid (decide (p.phase = .running)) p.containers s

/-- Embedding of one iteration of the event loop in `Logger.Log`
(part_001 lines 99-123). -/
def logProcessEvent (cfg : LogCfg) (s : LState) (e : Event) : LState :=
  match e.obj with
  | .notPod => s
  | .pod p =>
    let lookup := lookupA s.tracked p.uid
    if e.kind = .deleted ∨ e.kind = .error ∨ p.phase = .succeeded ∨ p.phase = .failed then
      match lookup with
      | some sid =>
        { s with
            sessions :=
              s.sessions.map (fun x => if x.id = sid then { x with cancelled := true } else x),
            tracked := eraseA s.tracked p.uid }
      | none =>
        if p.phase = .succeeded ∨ p.phase = .failed then spawnSessions cfg s p else s
    else if lookup.isSome ∨ p.phase = .pending then s
    else spawnSessions cfg s p

/-- Interleaving steps of the log reconciler. -/
inductive LogStep
  | event
  | register (sid : Nat)
  | finish (sid : Nat) (failed : Bool)
  | loopEnd
  | ret
deriving DecidableEq

/-- Predicate selecting the spawned-but-unscheduled session with a given id. -/
def logRegisterPred (sid : Nat) (x : LogSession) : Bool :=
  x.id == sid && decide (x.status = .spawned)

/-- Predicate selecting a session with a given id that is ready to run to
completion: a non-follow goroutine runs its bounded read straight from spawn,
a follow goroutine finishes only after it has registered and is streaming. -/
def logFinishPred (sid : Nat) (x : LogSession) : Bool :=
  x.id == sid && ((decide (x.status = .spawned) && !x.follow) || decide (x.status = .streaming))

/-- Small-step semantics of the log reconciler.

* `.event` — the loop body (`logProcessEvent`) consumes the next event.
* `.register sid` — the spawned goroutine of a follow session starts running:
  it executes `activeStreams.Store(pod.UID, streamCancel)` (part_001 line 150)
  and begins streaming.  A non-follow goroutine never stores anything, so for
  it this step is a no-op.
* `.finish sid failed` — the goroutine returns (the bounded `logPod` read for
  a non-follow session, end of `streamPod` for a streaming one); a stream or
  fetch error is reported via `kube.Err`.  Unlike the port-forward variant,
  the body does not delete its map entry.
* `.loopEnd` — the watch channel is exhausted and the loop falls through.
* `.ret` — `streaming.Wait()` (line 125) lets `Log` return `nil` only once all
  spawned goroutines have completed.

The `.register`/`.finish`/`.ret` interleaving rules are modelled from the
spec: `pkg/concurrent` is not under src; the spec states that session bodies
run concurrently with the consumer loop and that wait-for-all is the only exit
path. -/
def logStep (cfg : LogCfg) (s : LState) : LogStep → LState
  | .event =>
    if s.phase = .looping then
      match s.events with
      | [] => s
      | e :: rest => logProcessEvent cfg { s with events := rest } e
    else s
  | .register sid =>
    match s.sessions.find? (logRegisterPred sid) with
    | none => s
    | some sess =>
      if sess.follow then
        { s with
            tracked := insertA s.tracked sess.uid sid,
            sessions :=
              s.sessions.map (fun x => if x.id = sid then { x with status := .streaming } else x) }
      else s
  | .finish sid failed =>
    match s.sessions.find? (logFinishPred sid) with
    | none => s
    | some _ =>
      { s with
          sessions :=
            s.sessions.map (fun x => if x.id = sid then { x with status := .finished } else x),
          errReports := if failed then s.errReports ++ [sid] else s.errReports }
  | .loopEnd =>
    if s.phase = .looping ∧ s.events = [] then { s with phase := .waiting } else s
  | .ret =>
    if s.phase = .waiting ∧ s.sessions.all (fun x => decide (x.status = .finished)) then
      { s with phase := .returned }
    else s

/-- A run of the log reconciler: an arbitrary interleaving of steps. -/
def logRun (cfg : LogCfg) (s : LState) (steps : List LogStep) : LState :=
  steps.foldl (logStep cfg) s

/-- Initial log reconciler state for a given stream of events. -/
def logInit (events : List Event) : LState :=
  ⟨events, [], [], [], 0, .looping⟩

/-! ### Per-line filter pipeline (`Logger.outputLog`, part_001 lines 203-235) -/

/-- Classified output line: `Format` (no grep highlighting) or `FormatGrep`
(pattern highlighting), together with the color computed for the line. -/
inductive OutLine (Color : Type)
  | plain (text : String) (c : Color)
  | grep (text : String) (c : Color)
deriving DecidableEq

/-- Per-line filter configuration of the logger: the severity/color threshold
(`colorFilter`), the optional line pattern (`logRegexp`, abstracted to its
match predicate), and the inversion flag. -/
structure LogFilterCfg (Color : Type) where
  colorFilter : Option Color
  logRegexp : Option (String → Bool)
  invertRegexp : Bool

/-- Embedding of the per-line body of `Logger.outputLog` (part_001 lines
214-234).  `colorOfJSON` abstracts `ColorOfJSON` (severity/color
classification of the line's JSON content) and `colorIsGreater` the threshold
comparison; both helpers live outside src and only their call sites appear in
the loop.  Returns the emitted line, or `none` when the line is dropped. -/
def outputLine {Color : Type} (colorOfJSON : String → Color)
    (colorIsGreater : Color → Option Color → Bool)
    (cfg : LogFilterCfg Color) (text : String) : Option (OutLine Color) :=
  let c := colorOfJSON text
  if colorIsGreater c cfg.colorFilter then none
  else
    match cfg.logRegexp with
    | none => some (.plain text c)
    | some re =>
      if (re text && cfg.invertRegexp) || (!cfg.invertRegexp && !re text) then none
      else some (.grep text c)

/-- The whole scanner loop of `Logger.outputLog`: every input line goes through
the classify/threshold/pattern pipeline; dropped lines produce no output. -/
def outputLog {Color : Type} (colorOfJSON : String → Color)
    (colorIsGreater : Color → Option Color → Bool)
    (cfg : LogFilterCfg Color) (lines : List String) : List (OutLine Color) :=
  lines.filterMap (outputLine colorOfJSON colorIsGreater cfg)

/-! ### Reconcile entry points (error semantics) -/

/-- Whether an `Except` computation succeeded. -/
def isOkE {α : Type} : Except String α → Bool
  | .ok _ => true
  | .error _ => false

/-- Embedding of `Logger.Log` around the loop (part_001 lines 87-128): a
watch-establishment failure (`resource.WatchPods`, a collaborator outside src)
is wrapped as `watch pods: ...` and returned immediately; otherwise the loop
and `streaming.Wait()` run and `nil` is returned whatever the sessions did. -/
def logReconcile (cfg : LogCfg) (w : Except String (List Event))
    (steps : List LogStep) : Except String LState :=
  match w with
  | .error e => .error ("watch pods: " ++ e)
  | .ok evs => .ok (logRun cfg (logInit evs) steps)

/-- Embedding of the closure passed to `clients.Execute` in
`portForwardCmd.RunE` (src/cmd/port_forward.go lines 84-126): a watch
failure is returned as is; otherwise the loop, `Range`-close and
`forwarding.Wait()` run and `nil` is returned. -/
def pfReconcile (w : Except String (List Event))
    (steps : List PFStep) : Except String PFState :=
  match w with
  | .error e => .error e
  | .ok evs => .ok (pfRun (pfInit evs) steps)

/-! ### Forward-session body effects (`handleForwardPod`) -/

/-- Observable effects of a forwarding session body, in execution order. -/
inductive PoolEffect
  | errLog (msg : String)
  | warn (msg : String)
  | info (msg : String)
  | poolAdd (addr : String)
  | poolRemove (addr : String)
  | deleteUID (uid : Nat)
deriving DecidableEq

/-- Outcome environment for one run of the tcpool session body: the result of
`GetFreePort` and the result of `listenPortForward` (`none` meaning the tunnel
ended cleanly, whether naturally or through the stop channel). -/
structure PFBodyEnv where
  portResult : Except String Nat
  listenResult : Option String

/-- Embedding of the goroutine body of `handleForwardPod`
(src/cmd/port_forward.go lines 138-158) as the ordered list of its observable
effects.  Deferred calls run in LIFO order at every exit: the
`activeForwarding.Delete` registered first is always the final effect, and
`pool.Remove` (registered right after `pool.Add`) precedes it whenever the
`pool.Add` was reached. -/
def handleForwardPodBody (uid : Nat) (podName : String) (env : PFBodyEnv) : List PoolEffect :=
  match env.portResult with
  | .error e => [.errLog ("get free port: " ++ e), .deleteUID uid]
  | .ok port =>
    let backend := "127.0.0.1:" ++ toString port
    [.warn ("Forwarding to " ++ podName ++ "..."), .poolAdd backend]
      ++ (match env.listenResult with
          | some e => [.errLog ("Port-forward for " ++ podName ++ " failed: " ++ e)]
          | none => [])
      ++ [.poolRemove backend,
          .warn ("Forwarding to " ++ podName ++ " ended."),
          .deleteUID uid]

/-- Embedding of the goroutine body of the earlier `handleForwardPod`
(src/unnamed/part_000 lines 252-266): no forwarding pool exists there; the
deferred `activeForwarding.Delete` is still the final effect on every path. -/
def handleForwardPodBodyOld (uid : Nat) (podName : String) (localPort remotePort : Nat)
    (listenResult : Option String) : List PoolEffect :=
  [.info ("Starting port-forward 127.0.0.1:" ++ toString localPort ++ " => "
      ++ podName ++ ":" ++ toString remotePort)]
    ++ (match listenResult with
        | some e => [.errLog ("Port-forward for " ++ podName ++ " failed: " ++ e)]
        | none => [])
    ++ [.warn ("Port-forward 127.0.0.1:" ++ toString localPort ++ " => "
          ++ podName ++ ":" ++ toString remotePort ++ " ended."),
        .deleteUID uid]

/-- Backend addresses registered with the pool by a list of effects. -/
def addAddrs (l : List PoolEffect) : List String :=
  l.filterMap (fun e => match e with | .poolAdd a => some a | _ => none)

/-- Backend addresses deregistered from the pool by a list of effects. -/
def removeAddrs (l : List PoolEffect) : List String :=
  l.filterMap (fun e => match e with | .poolRemove a => some a | _ => none)

/-! ### Concrete inputs used by the closed evaluation theorems -/

/-- Logger configuration with no container regexp and dry-run off. -/
def cfg0 : LogCfg := ⟨fun _ => true, false⟩

/-- A Running single-container pod with UID 1. -/
def podR : PodRef := ⟨1, .running, ["app"]⟩

/-- The same pod observed in phase Succeeded. -/
def podS : PodRef := ⟨1, .succeeded, ["app"]⟩

/-- The same pod observed in phase Unknown. -/
def podU : PodRef := ⟨1, .unknown, ["app"]⟩

/-! ### Invariants -/

/-- Invariant underlying bounded teardown for the port-forward reconciler:
once returned, every spawned session body has completed, and from the moment
the loop fell through (absent a panic) every still-tracked stop channel has
been closed. -/
def pfInv (s : PFState) : Prop :=
  (s.phase = .returned → ∀ x ∈ s.sessions, x.finished = true) ∧
  ((s.phase = .waiting ∨ s.phase = .returned) → s.panicked = false →
    ∀ kv ∈ s.tracked, kv.2 ∈ s.closedChans)

/-- Invariant underlying bounded teardown for the log reconciler: once
returned, every spawned session goroutine has completed. -/
def logInvRet (s : LState) : Prop :=
  s.phase = .returned → ∀ x ∈ s.sessions, x.status = .finished

/-- Single-ownership invariant of the port-forward reconciler: session ids
are fresh and distinct, Tracking Map keys are distinct, every live (not yet
finished) session has its own entry in the map, and every map entry belongs
to exactly such a live session.  It holds because `handleForwardPod` runs its
`Store` synchronously in the event loop, before spawning the goroutine. -/
def pfOwnInv (s : PFState) : Prop :=
  (∀ x ∈ s.sessions, x.id < s.nextId) ∧
  (s.sessions.map PFSession.id).Nodup ∧
  (s.tracked.map Prod.fst).Nodup ∧
  (∀ x ∈ s.sessions, x.finished = false → (x.uid, x.id) ∈ s.tracked) ∧
  (∀ kv ∈ s.tracked, ∃ x, x ∈ s.sessions ∧ x.id = kv.2 ∧ x.uid = kv.1 ∧ x.finished = false)

/-! ### Association-list lemmas -/

theorem lookupA_eraseA (l : List (Nat × Nat)) (k : Nat) : lookupA (eraseA l k) k = none := by
  induction l with
  | nil => rfl
  | cons kv rest ih =>
    by_cases h : kv.1 = k
    · simpa [eraseA, List.filter_cons, h] using ih
    · simpa [eraseA, List.filter_cons, h, lookupA] using ih

theorem mem_eraseA {l : List (Nat × Nat)} {k : Nat} {kv : Nat × Nat}
    (h : kv ∈ eraseA l k) : kv ∈ l :=
  List.mem_of_mem_filter h

theorem mem_eraseA_iff {l : List (Nat × Nat)} {k : Nat} {kv : Nat × Nat} :
    kv ∈ eraseA l k ↔ kv ∈ l ∧ kv.1 ≠ k := by
  simp [eraseA, List.mem_filter]

theorem lookupA_none_keys {l : List (Nat × Nat)} {k : Nat} (h : lookupA l k = none) :
    ∀ kv ∈ l, kv.1 ≠ k := by
  induction l with
  | nil => intro kv hkv; cases hkv
  | cons a rest ih =>
    intro kv hkv
    by_cases ha : a.1 = k
    · rw [lookupA, if_pos ha] at h
      cases h
    · rw [lookupA, if_neg ha] at h
      rcases List.mem_cons.mp hkv with rfl | hkv
      · exact ha
      · exact ih h kv hkv

theorem eraseA_of_lookupA_none {l : List (Nat × Nat)} {k : Nat}
    (h : lookupA l k = none) : eraseA l k = l := by
  unfold eraseA
  apply List.filter_eq_self.mpr
  intro kv hkv
  have := lookupA_none_keys h kv hkv
  simpa using this

/-! ### Field-preservation lemmas for the log reconciler -/

theorem spawnGo_tracked (cfg : LogCfg) (uid : Nat) (follow : Bool) (cs : List String) :
    ∀ s : LState, (spawnGo cfg uid follow cs s).tracked = s.tracked := by
  induction cs with
  | nil => intro s; rfl
  | cons c cs ih =>
    intro s
    by_cases hsel : cfg.selected c
    · by_cases hdry : cfg.dryRun
      · simpa [spawnGo, hsel, hdry] using ih s
      · simp only [spawnGo, hsel, if_true, hdry, if_false, Bool.false_eq_true]
        rw [ih]
    · simpa [spawnGo, hsel] using ih s

theorem spawnGo_phase (cfg : LogCfg) (uid : Nat) (follow : Bool) (cs : List String) :
    ∀ s : LState, (spawnGo cfg uid follow cs s).phase = s.phase := by
  induction cs with
  | nil => intro s; rfl
  | cons c cs ih =>
    intro s
    by_cases hsel : cfg.selected c
    · by_cases hdry : cfg.dryRun
      · simpa [spawnGo, hsel, hdry] using ih s
      · simp only [spawnGo, hsel, if_true, hdry, if_false, Bool.false_eq_true]
        rw [ih]
    · simpa [spawnGo, hsel] using ih s

theorem spawnGo_events (cfg : LogCfg) (uid : Nat) (follow : Bool) (cs : List String) :
    ∀ s : LState, (spawnGo cfg uid follow cs s).events = s.events := by
  induction cs with
  | nil => intro s; rfl
  | cons c cs ih =>
    intro s
    by_cases hsel : cfg.selected c
    · by_cases hdry : cfg.dryRun
      · simpa [spawnGo, hsel, hdry] using ih s
      · simp only [spawnGo, hsel, if_true, hdry, if_false, Bool.false_eq_true]
        rw [ih]
    · simpa [spawnGo, hsel] using ih s

theorem spawnGo_sessions_length (cfg : LogCfg) (uid : Nat) (follow : Bool)
    (hdry : cfg.dryRun = false) (cs : List String) :
    ∀ s : LState,
      (spawnGo cfg uid follow cs s).sessions.length
        = s.sessions.length + (cs.filter cfg.selected).length := by
  induction cs with
  | nil => intro s; simp [spawnGo]
  | cons c cs ih =>
    intro s
    by_cases hsel : cfg.selected c
    · simp only [spawnGo, hsel, if_true, hdry, Bool.false_eq_true, if_false]
      rw [ih]
      simp [List.filter_cons, hsel]
      omega
    · simp only [spawnGo, hsel, Bool.false_eq_true, if_false]
      rw [ih]
      simp [List.filter_cons, hsel]

theorem spawnGo_sessions_mem (cfg : LogCfg) (uid : Nat) (follow : Bool) (cs : List String) :
    ∀ s : LState, ∀ x ∈ (spawnGo cfg uid follow cs s).sessions,
      x ∈ s.sessions ∨
        (x.uid = uid ∧ x.follow = follow ∧ x.status = .spawned ∧ x.cancelled = false) := by
  induction cs with
  | nil => intro s x hx; exact Or.inl hx
  | cons c cs ih =>
    intro s x hx
    by_cases hsel : cfg.selected c
    · by_cases hdry : cfg.dryRun
      · simp only [spawnGo, hsel, if_true, hdry] at hx
        exact ih s x hx
      · simp only [spawnGo, hsel, if_true, hdry, Bool.false_eq_true, if_false] at hx
        rcases ih _ x hx with h | h
        · rcases List.mem_append.mp h with h' | h'
          · exact Or.inl h'
          · rcases List.mem_singleton.mp h' with rfl
            exact Or.inr ⟨rfl, rfl, rfl, rfl⟩
        · exact Or.inr h
    · simp only [spawnGo, hsel, Bool.false_eq_true, if_false] at hx
      exact ih s x hx

theorem logProcessEvent_phase (cfg : LogCfg) (s : LState) (e : Event) :
    (logProcessEvent cfg s e).phase = s.phase := by
  rcases e with ⟨k, obj⟩
  cases obj with
  | notPod => rfl
  | pod p =>
    simp only [logProcessEvent]
    split
    · cases h : lookupA s.tracked p.uid
      · simp only [h]
        split
        · exact spawnGo_phase cfg p.uid _ p.containers s
        · rfl
      · simp only [h]
    · split
      · rfl
      · exact spawnGo_phase cfg p.uid _ p.containers s

theorem pfProcessEvent_phase (s : PFState) (e : Event) :
    (pfProcessEvent s e).phase = s.phase := by
  rcases e with ⟨k, obj⟩
  cases obj with
  | notPod => rfl
  | pod p =>
    simp only [pfProcessEvent]
    split
    · cases h : lookupA s.tracked p.uid
      · simp only [h]
      · simp only [h]
        split <;> rfl
    · split <;> rfl

/-! ### Teardown invariants (claim C5) -/

theorem pfInv_of_looping (t : PFState) (h : t.phase = .looping) : pfInv t := by
  constructor
  · intro hret
    exact RPhase.noConfusion (h.symm.trans hret)
  · intro hw
    rcases hw with hw | hw <;> exact RPhase.noConfusion (h.symm.trans hw)

theorem pfInv_step (s : PFState) (st : PFStep) (h : pfInv s) : pfInv (pfStep s st) := by
  obtain ⟨h1, h2⟩ := h
  cases st with
  | event =>
    by_cases hp : s.panicked
    · simpa [pfStep, hp] using ⟨h1, h2⟩
    · by_cases hl : s.phase = .looping
      · cases hev : s.events with
        | nil => simpa [pfStep, hp, hl, hev] using ⟨h1, h2⟩
        | cons e rest =>
          have hstep : pfStep s .event = pfProcessEvent { s with events := rest } e := by
            simp [pfStep, hp, hl, hev]
          rw [hstep]
          exact pfInv_of_looping _ ((pfProcessEvent_phase _ e).trans hl)
      · simpa [pfStep, hp, hl] using ⟨h1, h2⟩
  | finish sid failed =>
    by_cases hp : s.panicked
    · simpa [pfStep, hp] using ⟨h1, h2⟩
    · cases hf : s.sessions.find? (pfFinishPred sid) with
      | none => simpa [pfStep, hp, hf] using ⟨h1, h2⟩
      | some sess =>
        have hstep : pfStep s (.finish sid failed) = { s with
            sessions :=
              s.sessions.map (fun x => if x.id = sid then { x with finished := true } else x),
            tracked := eraseA s.tracked sess.uid,
            errReports := if failed then s.errReports ++ [sid] else s.errReports } := by
          simp [pfStep, hp, hf]
        rw [hstep]
        constructor
        · intro hret x hx
          rcases List.mem_map.mp hx with ⟨y, hy, rfl⟩
          by_cases hid : y.id = sid
          · simp [hid]
          · rw [if_neg hid]
            exact h1 hret y hy
        · intro hw hpan kv hkv
          exact h2 hw hpan kv (mem_eraseA hkv)
  | teardown =>
    by_cases hp : s.panicked
    · simpa [pfStep, hp] using ⟨h1, h2⟩
    · by_cases hg : s.phase = .looping ∧ s.events = []
      · by_cases hany : s.tracked.any (fun kv => s.closedChans.contains kv.2)
        · have hstep : pfStep s .teardown = { s with panicked := true } := by
            simp only [pfStep]
            rw [if_neg hp, if_pos hg, if_pos hany]
          rw [hstep]
          exact pfInv_of_looping _ hg.1
        · have hstep : pfStep s .teardown = { s with
              closedChans := s.tracked.map Prod.snd ++ s.closedChans,
              phase := .waiting } := by
            simp only [pfStep]
            rw [if_neg hp, if_pos hg, if_neg hany]
          rw [hstep]
          constructor
          · intro hret
            exact RPhase.noConfusion (show RPhase.waiting = .returned from hret)
          · intro _ _ kv hkv
            exact List.mem_append_left _ (List.mem_map_of_mem Prod.snd hkv)
      · have hstep : pfStep s .teardown = s := by
          simp only [pfStep]
          rw [if_neg hp, if_neg hg]
        rw [hstep]
        exact ⟨h1, h2⟩
  | ret =>
    by_cases hp : s.panicked
    · simpa [pfStep, hp] using ⟨h1, h2⟩
    · by_cases hg : s.phase = .waiting ∧ s.sessions.all (·.finished)
      · have hstep : pfStep s .ret = { s with phase := .returned } := by
          simp only [pfStep]
          rw [if_neg hp, if_pos hg]
        rw [hstep]
        constructor
        · intro _ x hx
          exact List.all_eq_true.mp hg.2 x hx
        · intro _ hpan kv hkv
          exact h2 (Or.inl hg.1) hpan kv hkv
      · have hstep : pfStep s .ret = s := by
          simp only [pfStep]
          rw [if_neg hp, if_neg hg]
        rw [hstep]
        exact ⟨h1, h2⟩

theorem pfInv_foldl (steps : List PFStep) :
    ∀ t : PFState, pfInv t → pfInv (List.foldl pfStep t steps) := by
  induction steps with
  | nil => intro t ht; exact ht
  | cons st steps ih =>
    intro t ht
    rw [List.foldl_cons]
    exact ih _ (pfInv_step t st ht)

theorem pfInv_run (events : List Event) (steps : List PFStep) :
    pfInv (pfRun (pfInit events) steps) :=
  pfInv_foldl steps _ (pfInv_of_looping _ rfl)

theorem logInvRet_step (cfg : LogCfg) (s : LState) (st : LogStep)
    (h : logInvRet s) : logInvRet (logStep cfg s st) := by
  cases st with
  | event =>
    by_cases hl : s.phase = .looping
    · cases hev : s.events with
      | nil => simpa [logStep, hl, hev] using h
      | cons e rest =>
        have hstep : logStep cfg s .event = logProcessEvent cfg { s with events := rest } e := by
          simp [logStep, hl, hev]
        rw [hstep]
        intro hret
        rw [logProcessEvent_phase] at hret
        have hret' : s.phase = .returned := hret
        exact RPhase.noConfusion (hl.symm.trans hret')
    · simpa [logStep, hl] using h
  | register sid =>
    cases hf : s.sessions.find? (logRegisterPred sid) with
    | none => simpa [logStep, hf] using h
    | some sess =>
      by_cases hfo : sess.follow
      · have hstep : logStep cfg s (.register sid) = { s with
            tracked := insertA s.tracked sess.uid sid,
            sessions := s.sessions.map
              (fun x => if x.id = sid then { x with status := .streaming } else x) } := by
          simp [logStep, hf, hfo]
        rw [hstep]
        intro hret
        have hret' : s.phase = .returned := hret
        have hsess := List.mem_of_find?_eq_some hf
        have hpred := List.find?_some hf
        have hspawned : sess.status = .spawned := by
          simp only [logRegisterPred, Bool.and_eq_true, decide_eq_true_eq] at hpred
          exact hpred.2
        have hfin := h hret' sess hsess
        rw [hfin] at hspawned
        exact SessStatus.noConfusion hspawned
      · simpa [logStep, hf, hfo] using h
  | finish sid failed =>
    cases hf : s.sessions.find? (logFinishPred sid) with
    | none => simpa [logStep, hf] using h
    | some sess =>
      have hstep : logStep cfg s (.finish sid failed) = { s with
          sessions := s.sessions.map
            (fun x => if x.id = sid then { x with status := .finished } else x),
          errReports := if failed then s.errReports ++ [sid] else s.errReports } := by
        simp [logStep, hf]
      rw [hstep]
      intro hret x hx
      rcases List.mem_map.mp hx with ⟨y, hy, rfl⟩
      have hret' : s.phase = .returned := hret
      by_cases hid : y.id = sid
      · simp [hid]
      · rw [if_neg hid]
        exact h hret' y hy
  | loopEnd =>
    by_cases hg : s.phase = .looping ∧ s.events = []
    · have hstep : logStep cfg s .loopEnd = { s with phase := .waiting } := by
        simp [logStep, hg.1, hg.2]
      rw [hstep]
      intro hret
      exact RPhase.noConfusion (show RPhase.waiting = .returned from hret)
    · simpa [logStep, hg] using h
  | ret =>
    by_cases hg : s.phase = .waiting ∧ s.sessions.all (fun x => decide (x.status = .finished))
    · have hstep : logStep cfg s .ret = { s with phase := .returned } := by
        simp only [logStep]
        rw [if_pos hg]
      rw [hstep]
      intro _ x hx
      have := List.all_eq_true.mp hg.2 x hx
      simpa using this
    · have hstep : logStep cfg s .ret = s := by
        simp only [logStep]
        rw [if_neg hg]
      rw [hstep]
      exact h

theorem logInvRet_foldl (cfg : LogCfg) (steps : List LogStep) :
    ∀ t : LState, logInvRet t → logInvRet (List.foldl (logStep cfg) t steps) := by
  induction steps with
  | nil => intro t ht; exact ht
  | cons st steps ih =>
    intro t ht
    rw [List.foldl_cons]
    exact ih _ (logInvRet_step cfg t st ht)

theorem logInvRet_run (cfg : LogCfg) (events : List Event) (steps : List LogStep) :
    logInvRet (logRun cfg (logInit events) steps) :=
  logInvRet_foldl cfg steps _ (fun hret => RPhase.noConfusion hret)

/-! ### Single-ownership invariant of the port-forward reconciler -/

theorem pfOwnInv_processEvent (s : PFState) (e : Event) (h : pfOwnInv s) :
    pfOwnInv (pfProcessEvent s e) := by
  obtain ⟨h1, h2, h3, h4, h5⟩ := h
  rcases e with ⟨k, obj⟩
  cases obj with
  | notPod => exact ⟨h1, h2, h3, h4, h5⟩
  | pod p =>
    simp only [pfProcessEvent]
    split
    next =>
      cases hl : lookupA s.tracked p.uid with
      | none => exact ⟨h1, h2, h3, h4, h5⟩
      | some ch =>
        dsimp only
        by_cases hc : ch ∈ s.closedChans
        · rw [if_pos hc]
          exact ⟨h1, h2, h3, h4, h5⟩
        · rw [if_neg hc]
          exact ⟨h1, h2, h3, h4, h5⟩
    next =>
      split
      next => exact ⟨h1, h2, h3, h4, h5⟩
      next hcond =>
        have hlook : lookupA s.tracked p.uid = none := by
          rcases not_or.mp hcond with ⟨hns, _⟩
          exact Option.not_isSome_iff_eq_none.mp hns
        have htr : insertA s.tracked p.uid s.nextId = (p.uid, s.nextId) :: s.tracked := by
          rw [insertA, eraseA_of_lookupA_none hlook]
        rw [htr]
        refine ⟨?_, ?_, ?_, ?_, ?_⟩
        · intro x hx
          rcases List.mem_append.mp hx with hx | hx
          · exact Nat.lt_succ_of_lt (h1 x hx)
          · rcases List.mem_singleton.mp hx with rfl
            exact Nat.lt_succ_self _
        · rw [List.map_append, List.nodup_append]
          refine ⟨h2, List.nodup_singleton _, ?_⟩
          intro a ha hb
          rcases List.mem_map.mp ha with ⟨x, hx, rfl⟩
          simp only [List.map_cons, List.map_nil, List.mem_singleton] at hb
          exact absurd (hb ▸ h1 x hx) (Nat.lt_irrefl _)
        · rw [List.map_cons, List.nodup_cons]
          refine ⟨?_, h3⟩
          intro hmem
          rcases List.mem_map.mp hmem with ⟨kv, hkv, hfst⟩
          exact lookupA_none_keys hlook kv hkv hfst
        · intro x hx hxf
          rcases List.mem_append.mp hx with hx | hx
          · exact List.mem_cons_of_mem _ (h4 x hx hxf)
          · rcases List.mem_singleton.mp hx with rfl
            exact List.mem_cons_self _ _
        · intro kv hkv
          rcases List.mem_cons.mp hkv with rfl | hkv
          · exact ⟨⟨s.nextId, p.uid, false⟩,
              List.mem_append_right _ (List.mem_singleton_self _), rfl, rfl, rfl⟩
          · rcases h5 kv hkv with ⟨x, hx, hid, huid, hfin⟩
            exact ⟨x, List.mem_append_left _ hx, hid, huid, hfin⟩

theorem pfOwnInv_step (s : PFState) (st : PFStep) (h : pfOwnInv s) :
    pfOwnInv (pfStep s st) := by
  obtain ⟨h1, h2, h3, h4, h5⟩ := h
  cases st with
  | event =>
    by_cases hp : s.panicked
    · simpa [pfStep, hp] using ⟨h1, h2, h3, h4, h5⟩
    · by_cases hl : s.phase = .looping
      · cases hev : s.events with
        | nil => simpa [pfStep, hp, hl, hev] using ⟨h1, h2, h3, h4, h5⟩
        | cons e rest =>
          have hstep : pfStep s .event = pfProcessEvent { s with events := rest } e := by
            simp [pfStep, hp, hl, hev]
          rw [hstep]
          exact pfOwnInv_processEvent _ e ⟨h1, h2, h3, h4, h5⟩
      · simpa [pfStep, hp, hl] using ⟨h1, h2, h3, h4, h5⟩
  | finish sid failed =>
    by_cases hp : s.panicked
    · simpa [pfStep, hp] using ⟨h1, h2, h3, h4, h5⟩
    · cases hf : s.sessions.find? (pfFinishPred sid) with
      | none => simpa [pfStep, hp, hf] using ⟨h1, h2, h3, h4, h5⟩
      | some sess =>
        have hmem := List.mem_of_find?_eq_some hf
        have hpred := List.find?_some hf
        have hsid : sess.id = sid ∧ sess.finished = false := by
          simp [pfFinishPred] at hpred
          exact hpred
        have hstep : pfStep s (.finish sid failed) = { s with
            sessions :=
              s.sessions.map (fun x => if x.id = sid then { x with finished := true } else x),
            tracked := eraseA s.tracked sess.uid,
            errReports := if failed then s.errReports ++ [sid] else s.errReports } := by
          simp [pfStep, hp, hf]
        rw [hstep]
        have hid_pres : ∀ x : PFSession,
            (if x.id = sid then { x with finished := true } else x).id = x.id := by
          intro x
          by_cases hx : x.id = sid <;> simp [hx]
        refine ⟨?_, ?_, ?_, ?_, ?_⟩
        · intro x hx
          rcases List.mem_map.mp hx with ⟨y, hy, rfl⟩
          rw [hid_pres]
          exact h1 y hy
        · rw [List.map_map]
          have : (PFSession.id ∘ fun x => if x.id = sid then { x with finished := true } else x)
              = PFSession.id := funext hid_pres
          rw [this]
          exact h2
        · exact List.Nodup.sublist
            (List.Sublist.map Prod.fst (List.filter_sublist s.tracked)) h3
        · intro x hx hxf
          rcases List.mem_map.mp hx with ⟨y, hy, rfl⟩
          by_cases hy_id : y.id = sid
          · rw [if_pos hy_id] at hxf
            simp at hxf
          · rw [if_neg hy_id] at hxf ⊢
            have hmemy := h4 y hy hxf
            rw [mem_eraseA_iff]
            refine ⟨hmemy, ?_⟩
            intro huid
            have hmems := h4 sess hmem hsid.2
            have hys : ((y.uid, y.id) : Nat × Nat) = (sess.uid, sess.id) :=
              List.inj_on_of_nodup_map h3 hmemy hmems huid
            have : y.id = sess.id := congrArg Prod.snd hys
            exact hy_id (this.trans hsid.1)
        · intro kv hkv
          have hkv' := mem_eraseA_iff.mp hkv
          rcases h5 kv hkv'.1 with ⟨x, hx, hxid, hxuid, hxfin⟩
          have hx_ne : x.id ≠ sid := by
            intro hxsid
            have hxs : x = sess :=
              List.inj_on_of_nodup_map h2 hx hmem (hxsid.trans hsid.1.symm)
            have huid2 : kv.1 = sess.uid := by rw [← hxuid, hxs]
            exact hkv'.2 huid2
          refine ⟨if x.id = sid then { x with finished := true } else x,
            List.mem_map_of_mem _ hx, ?_, ?_, ?_⟩
          · rw [if_neg hx_ne]
            exact hxid
          · rw [if_neg hx_ne]
            exact hxuid
          · rw [if_neg hx_ne]
            exact hxfin
  | teardown =>
    by_cases hp : s.panicked
    · simpa [pfStep, hp] using ⟨h1, h2, h3, h4, h5⟩
    · by_cases hg : s.phase = .looping ∧ s.events = []
      · by_cases hany : s.tracked.any (fun kv => s.closedChans.contains kv.2)
        · have hstep : pfStep s .teardown = { s with panicked := true } := by
            simp only [pfStep]
            rw [if_neg hp, if_pos hg, if_pos hany]
          rw [hstep]
          exact ⟨h1, h2, h3, h4, h5⟩
        · have hstep : pfStep s .teardown = { s with
              closedChans := s.tracked.map Prod.snd ++ s.closedChans,
              phase := .waiting } := by
            simp only [pfStep]
            rw [if_neg hp, if_pos hg, if_neg hany]
          rw [hstep]
          exact ⟨h1, h2, h3, h4, h5⟩
      · have hstep : pfStep s .teardown = s := by
          simp only [pfStep]
          rw [if_neg hp, if_neg hg]
        rw [hstep]
        exact ⟨h1, h2, h3, h4, h5⟩
  | ret =>
    by_cases hp : s.panicked
    · simpa [pfStep, hp] using ⟨h1, h2, h3, h4, h5⟩
    · by_cases hg : s.phase = .waiting ∧ s.sessions.all (·.finished)
      · have hstep : pfStep s .ret = { s with phase := .returned } := by
          simp only [pfStep]
          rw [if_neg hp, if_pos hg]
        rw [hstep]
        exact ⟨h1, h2, h3, h4, h5⟩
      · have hstep : pfStep s .ret = s := by
          simp only [pfStep]
          rw [if_neg hp, if_neg hg]
        rw [hstep]
        exact ⟨h1, h2, h3, h4, h5⟩

theorem pfOwnInv_foldl (steps : List PFStep) :
    ∀ t : PFState, pfOwnInv t → pfOwnInv (List.foldl pfStep t steps) := by
  induction steps with
  | nil => intro t ht; exact ht
  | cons st steps ih =>
    intro t ht
    rw [List.foldl_cons]
    exact ih _ (pfOwnInv_step t st ht)

theorem pfOwnInv_run (events : List Event) (steps : List PFStep) :
    pfOwnInv (pfRun (pfInit events) steps) := by
  apply pfOwnInv_foldl
  refine ⟨?_, ?_, ?_, ?_, ?_⟩
  · intro x hx; cases hx
  · exact List.nodup_nil
  · exact List.nodup_nil
  · intro x hx; cases hx
  · intro kv hkv; cases hkv

/-- Single ownership in the port-forward reconciler, for every event stream
and every interleaving: the Tracking Map never holds two entries for one UID,
and no two concurrently live (unfinished) sessions exist for the same UID.
The log reconciler does not enjoy the second property; see the C1 evaluation
theorem. -/
theorem pf_single_ownership (events : List Event) (steps : List PFStep) :
    ((pfRun (pfInit events) steps).tracked.map Prod.fst).Nodup
    ∧ (∀ x ∈ (pfRun (pfInit events) steps).sessions,
        ∀ y ∈ (pfRun (pfInit events) steps).sessions,
          x.finished = false → y.finished = false → x.uid = y.uid → x = y) := by
  obtain ⟨h1, h2, h3, h4, h5⟩ := pfOwnInv_run events steps
  refine ⟨h3, ?_⟩
  intro x hx y hy hxf hyf huid
  have hmx := h4 x hx hxf
  have hmy := h4 y hy hyf
  have hxy : (x.uid, x.id) = (y.uid, y.id) :=
    List.inj_on_of_nodup_map h3 hmx hmy (by simpa using huid)
  have hid : x.id = y.id := congrArg Prod.snd hxy
  exact List.inj_on_of_nodup_map h2 hx hy hid

/-! ### Branch-reduction lemmas for the event loops -/

theorem logProcessEvent_cancel (cfg : LogCfg) (s : LState) (p : PodRef) (k : EventKind)
    (sid : Nat)
    (hcond : k = .deleted ∨ k = .error ∨ p.phase = .succeeded ∨ p.phase = .failed)
    (hs : lookupA s.tracked p.uid = some sid) :
    logProcessEvent cfg s ⟨k, .pod p⟩ = { s with
      sessions :=
        s.sessions.map (fun x => if x.id = sid then { x with cancelled := true } else x),
      tracked := eraseA s.tracked p.uid } := by
  rcases hcond with rfl | rfl | h | h
  · simp [logProcessEvent, hs]
  · simp [logProcessEvent, hs]
  · simp [logProcessEvent, hs, h]
  · simp [logProcessEvent, hs, h]

theorem logProcessEvent_terminal_untracked (cfg : LogCfg) (s : LState) (p : PodRef)
    (k : EventKind)
    (hph : p.phase = .succeeded ∨ p.phase = .failed)
    (hun : lookupA s.tracked p.uid = none) :
    logProcessEvent cfg s ⟨k, .pod p⟩ = spawnSessions cfg s p := by
  rcases hph with h | h <;> simp [logProcessEvent, hun, h]

theorem pfProcessEvent_close (t : PFState) (q : PodRef) (k : EventKind) (ch : Nat)
    (hcond : k = .deleted ∨ q.phase = .succeeded ∨ q.phase = .failed)
    (ht : lookupA t.tracked q.uid = some ch)
    (hch : ch ∉ t.closedChans) :
    pfProcessEvent t ⟨k, .pod q⟩ = { t with closedChans := ch :: t.closedChans } := by
  rcases hcond with rfl | h | h
  · simp [pfProcessEvent, ht, hch]
  · simp [pfProcessEvent, ht, hch, h]
  · simp [pfProcessEvent, ht, hch, h]

theorem pfProcessEvent_terminal_untracked (t : PFState) (p : PodRef) (k : EventKind)
    (hph : p.phase = .succeeded ∨ p.phase = .failed)
    (hun : lookupA t.tracked p.uid = none) :
    pfProcessEvent t ⟨k, .pod p⟩ = t := by
  rcases hph with h | h <;> simp [pfProcessEvent, hun, h]

theorem pfProcessEvent_error_tracked_running (t : PFState) (q : PodRef)
    (hq : q.phase = .running) (htr : (lookupA t.tracked q.uid).isSome) :
    pfProcessEvent t ⟨.error, .pod q⟩ = t := by
  simp [pfProcessEvent, hq, htr]

theorem logStep_register_oneshot (cfg : LogCfg) (s : LState) (sid : Nat)
    (hns : ∀ x ∈ s.sessions, x.id = sid → x.follow = false) :
    logStep cfg s (.register sid) = s := by
  cases hfind : s.sessions.find? (logRegisterPred sid) with
  | none => simp [logStep, hfind]
  | some sess =>
    have hmem := List.mem_of_find?_eq_some hfind
    have hpred := List.find?_some hfind
    have hid : sess.id = sid := by
      simp only [logRegisterPred, Bool.and_eq_true, beq_iff_eq, decide_eq_true_eq] at hpred
      exact hpred.1
    have hfo : sess.follow = false := hns sess hmem hid
    simp [logStep, hfind, hfo]

/-! ### Claim theorems -/

/-- C1 (code_bug evaluation): in the log reconciler, two Added/Modified events
for the same Running single-container pod, both processed before either
spawned goroutine has executed its `activeStreams.Store`, yield two
concurrently live streaming sessions for UID 1, while the Tracking Map holds
only the second session's cancel function (the second `Store` overwrote the
first, orphaning session 0).  The loop's tracked-check (`Load`) is not atomic
with the goroutine-side `Store`, so the single-ownership invariant fails. -/
theorem c1_log_two_live_sessions_on_failing_input :
    (logRun cfg0 (logInit [⟨.added, .pod podR⟩, ⟨.modified, .pod podR⟩])
        [.event, .event, .register 0, .register 1]).sessions
      = [⟨0, 1, true, .streaming, false⟩, ⟨1, 1, true, .streaming, false⟩]
    ∧ (logRun cfg0 (logInit [⟨.added, .pod podR⟩, ⟨.modified, .pod podR⟩])
        [.event, .event, .register 0, .register 1]).tracked = [(1, 1)] := by
  decide

/-- C9 (code_bug evaluation): in the port-forward reconciler, a pod starts
(Added/Running), transitions to Succeeded (Modified closes its stop channel),
and is then Deleted before the session goroutine has run its deferred
`activeForwarding.Delete`; the loop finds the stale entry and calls `close` on
the already-closed channel, which panics. -/
theorem c9_pf_double_close_on_failing_input :
    (pfRun (pfInit [⟨.added, .pod podR⟩, ⟨.modified, .pod podS⟩, ⟨.deleted, .pod podS⟩])
        [.event, .event, .event]).panicked = true
    ∧ (pfRun (pfInit [⟨.added, .pod podR⟩, ⟨.modified, .pod podS⟩])
        [.event, .event]).closedChans = [0] := by
  decide

/-- C2 (counterexample): the port-forward reconciler, on first sight of a pod
already in phase Succeeded, starts no session at all (and tracks nothing) —
it does not run the one bounded session the claim requires of both
reconcilers. -/
theorem c2_cex_pf_terminal_pod_starts_no_session :
    (pfRun (pfInit [⟨.added, .pod podS⟩]) [.event]).sessions = []
    ∧ (pfRun (pfInit [⟨.added, .pod podS⟩]) [.event]).tracked = [] := by
  decide

/-- C3 (counterexample): the log reconciler, on an Added event for an
untracked pod in phase Unknown, is not a no-op: it spawns a bounded one-shot
session for the selected container (the claim says the event is ignored). -/
theorem c3_cex_log_unknown_phase_spawns_session :
    (logRun cfg0 (logInit [⟨.added, .pod podU⟩]) [.event]).sessions
      = [⟨0, 1, false, .spawned, false⟩] := by
  decide

/-- C4 (counterexample): in the port-forward reconciler, processing a Deleted
event for a tracked pod closes the stop channel but leaves the UID in the
Tracking Map (the entry is only removed later by the session body's deferred
delete), so immediately after the event the UID is still tracked. -/
theorem c4_cex_pf_deleted_leaves_uid_tracked :
    lookupA (pfRun (pfInit [⟨.added, .pod podR⟩, ⟨.deleted, .pod podR⟩])
        [.event, .event]).tracked 1 = some 0
    ∧ (pfRun (pfInit [⟨.added, .pod podR⟩, ⟨.deleted, .pod podR⟩])
        [.event, .event]).closedChans = [0] := by
  decide

/-- C2 (amended): on first sight of a pod already in phase Succeeded or
Failed, the log reconciler spawns exactly one bounded (non-follow) session
per selected container and leaves the Tracking Map unchanged — a non-follow
session can never register a handle (its register step is a no-op) — while
the port-forward reconciler starts no session for such a pod and does not
track it. -/
theorem c2_amended_terminal_oneshot (cfg : LogCfg) (s : LState) (p : PodRef)
    (k : EventKind) (t : PFState) (s2 : LState) (sid : Nat)
    (hdry : cfg.dryRun = false)
    (hph : p.phase = .succeeded ∨ p.phase = .failed)
    (hun : lookupA s.tracked p.uid = none)
    (hun2 : lookupA t.tracked p.uid = none)
    (hns : ∀ x ∈ s2.sessions, x.id = sid → x.follow = false) :
    (logProcessEvent cfg s ⟨k, .pod p⟩).tracked = s.tracked
    ∧ (logProcessEvent cfg s ⟨k, .pod p⟩).sessions.length
        = s.sessions.length + (p.containers.filter cfg.selected).length
    ∧ (∀ x ∈ (logProcessEvent cfg s ⟨k, .pod p⟩).sessions,
        x ∈ s.sessions ∨ (x.uid = p.uid ∧ x.follow = false ∧ x.status = .spawned))
    ∧ logStep cfg s2 (.register sid) = s2
    ∧ pfProcessEvent t ⟨k, .pod p⟩ = t := by
  have hf : decide (p.phase = .running) = false := by
    rcases hph with h | h <;> simp [h]
  rw [logProcessEvent_terminal_untracked cfg s p k hph hun]
  refine ⟨?_, ?_, ?_, ?_, ?_⟩
  · exact spawnGo_tracked cfg p.uid _ p.containers s
  · exact spawnGo_sessions_length cfg p.uid _ hdry p.containers s
  · intro x hx
    rcases spawnGo_sessions_mem cfg p.uid _ p.containers s x hx with h | h
    · exact Or.inl h
    · exact Or.inr ⟨h.1, by rw [h.2.1, hf], h.2.2.1⟩
  · exact logStep_register_oneshot cfg s2 sid hns
  · exact pfProcessEvent_terminal_untracked t p k hph hun2

/-- C2 (witness): the amended theorem applied to the Succeeded pod of UID 1
on fresh reconciler states: the hypotheses hold and the log Tracking Map is
untouched by the one-shot handling. -/
theorem c2_amended_terminal_oneshot_witness :
    cfg0.dryRun = false
    ∧ lookupA (logInit []).tracked podS.uid = none
    ∧ (logProcessEvent cfg0 (logInit []) ⟨.added, .pod podS⟩).tracked = (logInit []).tracked :=
  ⟨rfl, rfl,
    (c2_amended_terminal_oneshot cfg0 (logInit []) podS .added (pfInit [])
      (⟨[], [], [⟨0, 1, false, .spawned, false⟩], [], 1, .looping⟩ : LState) 0
      rfl (Or.inl rfl) rfl rfl (by decide)).1⟩

/-- C3 (amended): Added/Modified events in phase Pending are ignored by both
reconcilers, and the port-forward reconciler also ignores phase Unknown; the
log reconciler ignores Unknown only for tracked pods — for an untracked pod
in phase Unknown it spawns bounded one-shot sessions for the selected
containers, leaving the Tracking Map unchanged. -/
theorem c3_amended_pending_unknown (cfg : LogCfg) (s s2 s3 : LState) (t : PFState)
    (p pU : PodRef) (q : PodRef) (k : EventKind)
    (hk : k = .added ∨ k = .modified)
    (hq : q.phase = .pending ∨ q.phase = .unknown)
    (hpend : p.phase = .pending)
    (hU : pU.phase = .unknown)
    (htr : (lookupA s2.tracked pU.uid).isSome)
    (hun : lookupA s3.tracked pU.uid = none)
    (hdry : cfg.dryRun = false) :
    pfProcessEvent t ⟨k, .pod q⟩ = t
    ∧ logProcessEvent cfg s ⟨k, .pod p⟩ = s
    ∧ logProcessEvent cfg s2 ⟨k, .pod pU⟩ = s2
    ∧ (logProcessEvent cfg s3 ⟨k, .pod pU⟩).tracked = s3.tracked
    ∧ (logProcessEvent cfg s3 ⟨k, .pod pU⟩).sessions.length
        = s3.sessions.length + (pU.containers.filter cfg.selected).length
    ∧ (∀ x ∈ (logProcessEvent cfg s3 ⟨k, .pod pU⟩).sessions,
        x ∈ s3.sessions ∨ (x.uid = pU.uid ∧ x.follow = false ∧ x.status = .spawned)) := by
  have hspawn : logProcessEvent cfg s3 ⟨k, .pod pU⟩ = spawnSessions cfg s3 pU := by
    rcases hk with rfl | rfl <;> simp [logProcessEvent, hun, hU]
  have hfU : decide (pU.phase = .running) = false := by simp [hU]
  refine ⟨?_, ?_, ?_, ?_, ?_, ?_⟩
  · rcases hk with rfl | rfl <;> rcases hq with h | h <;> simp [pfProcessEvent, h]
  · rcases hk with rfl | rfl <;> simp [logProcessEvent, hpend]
  · rcases hk with rfl | rfl <;> simp [logProcessEvent, hU, htr]
  · rw [hspawn]
    exact spawnGo_tracked cfg pU.uid _ pU.containers s3
  · rw [hspawn]
    exact spawnGo_sessions_length cfg pU.uid _ hdry pU.containers s3
  · rw [hspawn]
    intro x hx
    rcases spawnGo_sessions_mem cfg pU.uid _ pU.containers s3 x hx with h | h
    · exact Or.inl h
    · exact Or.inr ⟨h.1, by rw [h.2.1, hfU], h.2.2.1⟩

/-- C3 (witness): the amended theorem applied to fresh states with the
Pending/Unknown pods of UID 1: the port-forward reconciler leaves its state
unchanged. -/
theorem c3_amended_pending_unknown_witness :
    podU.phase = .unknown
    ∧ pfProcessEvent (pfInit []) ⟨.added, .pod (⟨1, .pending, ["app"]⟩ : PodRef)⟩ = pfInit [] :=
  ⟨rfl,
    (c3_amended_pending_unknown cfg0 (logInit []) (⟨[], [(1, 0)], [], [], 1, .looping⟩ : LState)
      (logInit []) (pfInit []) (⟨1, .pending, ["app"]⟩ : PodRef) podU
      (⟨1, .pending, ["app"]⟩ : PodRef) .added
      (Or.inl rfl) (Or.inl rfl) rfl rfl (by decide) rfl rfl).1⟩

/-- C4 (amended): in the log reconciler, a Deleted or Error event for a
tracked pod cancels the stored session and immediately removes the UID from
the Tracking Map; in the port-forward reconciler, a Deleted event for a
tracked pod closes the session's stop channel but leaves the map entry in
place (it is removed only by the session body's deferred delete), and an
Error event for a tracked Running pod is ignored entirely. -/
theorem c4_amended_deleted_error_handling (cfg : LogCfg) (s : LState) (p : PodRef)
    (k : EventKind) (sid : Nat) (t t2 : PFState) (q q2 : PodRef) (ch : Nat)
    (hk : k = .deleted ∨ k = .error)
    (hs : lookupA s.tracked p.uid = some sid)
    (ht : lookupA t.tracked q.uid = some ch)
    (hch : ch ∉ t.closedChans)
    (hq2 : q2.phase = .running)
    (ht2 : (lookupA t2.tracked q2.uid).isSome) :
    lookupA (logProcessEvent cfg s ⟨k, .pod p⟩).tracked p.uid = none
    ∧ (∀ x ∈ (logProcessEvent cfg s ⟨k, .pod p⟩).sessions, x.id = sid → x.cancelled = true)
    ∧ ch ∈ (pfProcessEvent t ⟨.deleted, .pod q⟩).closedChans
    ∧ lookupA (pfProcessEvent t ⟨.deleted, .pod q⟩).tracked q.uid = some ch
    ∧ pfProcessEvent t2 ⟨.error, .pod q2⟩ = t2 := by
  have hcond : k = .deleted ∨ k = .error ∨ p.phase = .succeeded ∨ p.phase = .failed := by
    rcases hk with rfl | rfl
    · exact Or.inl rfl
    · exact Or.inr (Or.inl rfl)
  rw [logProcessEvent_cancel cfg s p k sid hcond hs,
    pfProcessEvent_close t q .deleted ch (Or.inl rfl) ht hch]
  refine ⟨?_, ?_, ?_, ?_, ?_⟩
  · exact lookupA_eraseA s.tracked p.uid
  · intro x hx hxid
    rcases List.mem_map.mp hx with ⟨y, hy, rfl⟩
    by_cases hid : y.id = sid
    · simp [hid]
    · rw [if_neg hid] at hxid
      exact absurd hxid hid
  · exact List.mem_cons_self ch t.closedChans
  · exact ht
  · exact pfProcessEvent_error_tracked_running t2 q2 hq2 ht2

/-- C4 (witness): the amended theorem applied to states tracking UID 1 with
session/stop-channel 0: the log map entry is gone right after the Deleted
event is processed. -/
theorem c4_amended_deleted_error_handling_witness :
    lookupA (⟨[], [(1, 0)], [⟨0, 1, true, .streaming, false⟩], [], 1, .looping⟩ : LState).tracked
        podR.uid = some 0
    ∧ lookupA (logProcessEvent cfg0
        (⟨[], [(1, 0)], [⟨0, 1, true, .streaming, false⟩], [], 1, .looping⟩ : LState)
        ⟨.deleted, .pod podR⟩).tracked podR.uid = none :=
  ⟨rfl,
    (c4_amended_deleted_error_handling cfg0
      (⟨[], [(1, 0)], [⟨0, 1, true, .streaming, false⟩], [], 1, .looping⟩ : LState) podR .deleted 0
      (⟨[], [(1, 0)], [], [⟨0, 1, false⟩], [], 1, false, .looping⟩ : PFState)
      (⟨[], [(1, 0)], [], [⟨0, 1, false⟩], [], 1, false, .looping⟩ : PFState)
      podR podR 0
      (Or.inl rfl) rfl rfl (by decide) rfl (by decide)).1⟩

/-- C5 (amended): when the event stream terminates, the port-forward
reconciler closes every still-tracked stop channel (absent the double-close
panic) and returns only after every started session body has completed; the
log reconciler performs no cancellation of still-tracked sessions at stream
end, but it likewise returns only after every started session goroutine has
completed. -/
theorem c5_amended_bounded_teardown (events : List Event) (steps : List PFStep)
    (cfg : LogCfg) (events2 : List Event) (steps2 : List LogStep) :
    ((pfRun (pfInit events) steps).phase = .returned →
      ∀ x ∈ (pfRun (pfInit events) steps).sessions, x.finished = true)
    ∧ (((pfRun (pfInit events) steps).phase = .waiting ∨
          (pfRun (pfInit events) steps).phase = .returned) →
        (pfRun (pfInit events) steps).panicked = false →
        ∀ kv ∈ (pfRun (pfInit events) steps).tracked,
          kv.2 ∈ (pfRun (pfInit events) steps).closedChans)
    ∧ ((logRun cfg (logInit events2) steps2).phase = .returned →
        ∀ x ∈ (logRun cfg (logInit events2) steps2).sessions, x.status = .finished) :=
  ⟨(pfInv_run events steps).1, (pfInv_run events steps).2, logInvRet_run cfg events2 steps2⟩

/-- C5 (witness): the amended theorem applied to a port-forward run that
starts one session, lets it finish, tears down and returns: the run reaches
the returned phase and the started session is finished there. -/
theorem c5_amended_bounded_teardown_witness :
    (pfRun (pfInit [⟨.added, .pod podR⟩]) [.event, .finish 0 false, .teardown, .ret]).phase
        = .returned
    ∧ (⟨0, 1, true⟩ : PFSession).finished = true :=
  ⟨by decide,
    (c5_amended_bounded_teardown [⟨.added, .pod podR⟩] [.event, .finish 0 false, .teardown, .ret]
      cfg0 [] []).1 (by decide) ⟨0, 1, true⟩ (by decide)⟩

/-- C5 (counterexample): the log reconciler performs no cancellation at
stream termination: in this run the watch stream ends while session 0 is
still tracked and streaming, the reconciler returns after the session ends
naturally, and the session was never cancelled (its map entry is still
present at return). -/
theorem c5_cex_log_returns_without_cancelling_tracked_session :
    (logRun cfg0 (logInit [⟨.added, .pod podR⟩])
        [.event, .register 0, .finish 0 false, .loopEnd, .ret]).phase = .returned
    ∧ (logRun cfg0 (logInit [⟨.added, .pod podR⟩])
        [.event, .register 0, .finish 0 false, .loopEnd, .ret]).tracked = [(1, 0)]
    ∧ (logRun cfg0 (logInit [⟨.added, .pod podR⟩])
        [.event, .register 0, .finish 0 false, .loopEnd, .ret]).sessions
      = [⟨0, 1, true, .finished, false⟩] := by
  decide

/-! ### Line-filter lemmas (claim C6) -/

theorem outputLine_isSome_iff {Color : Type} (colorOfJSON : String → Color)
    (colorIsGreater : Color → Option Color → Bool)
    (cfg : LogFilterCfg Color) (text : String) :
    (outputLine colorOfJSON colorIsGreater cfg text).isSome ↔
      (colorIsGreater (colorOfJSON text) cfg.colorFilter = false ∧
        ∀ re, cfg.logRegexp = some re →
          ((re text = true ∧ cfg.invertRegexp = false) ∨
            (re text = false ∧ cfg.invertRegexp = true))) := by
  cases hthr : colorIsGreater (colorOfJSON text) cfg.colorFilter with
  | true => simp [outputLine, hthr]
  | false =>
    cases hre : cfg.logRegexp with
    | none => simp [outputLine, hthr, hre]
    | some re =>
      cases hm : re text <;> cases hinv : cfg.invertRegexp <;>
        simp [outputLine, hthr, hre, hm, hinv]

theorem outputLine_threshold_drops {Color : Type} (colorOfJSON : String → Color)
    (colorIsGreater : Color → Option Color → Bool)
    (cfg : LogFilterCfg Color) (text : String)
    (hthr : colorIsGreater (colorOfJSON text) cfg.colorFilter = true) :
    outputLine colorOfJSON colorIsGreater cfg text = none := by
  simp [outputLine, hthr]

theorem outputLine_no_pattern {Color : Type} (colorOfJSON : String → Color)
    (colorIsGreater : Color → Option Color → Bool)
    (cfg : LogFilterCfg Color) (text : String)
    (hre : cfg.logRegexp = none)
    (hthr : colorIsGreater (colorOfJSON text) cfg.colorFilter = false) :
    outputLine colorOfJSON colorIsGreater cfg text = some (.plain text (colorOfJSON text)) := by
  simp [outputLine, hthr, hre]

/-- C6: per-line filter pipeline of `Logger.outputLog`.  The line is first
classified (`colorOfJSON`); a line above the configured threshold is dropped
before the pattern is even consulted; with a configured pattern the line is
emitted exactly when it matches with `invertRegexp` off, or does not match
with `invertRegexp` on; with no pattern every threshold-surviving line is
emitted (with its classified color). -/
theorem c6_filter_pipeline {Color : Type} (colorOfJSON : String → Color)
    (colorIsGreater : Color → Option Color → Bool)
    (cfg : LogFilterCfg Color) (text : String) (lines : List String) :
    ((outputLine colorOfJSON colorIsGreater cfg text).isSome ↔
      (colorIsGreater (colorOfJSON text) cfg.colorFilter = false ∧
        ∀ re, cfg.logRegexp = some re →
          ((re text = true ∧ cfg.invertRegexp = false) ∨
            (re text = false ∧ cfg.invertRegexp = true))))
    ∧ (colorIsGreater (colorOfJSON text) cfg.colorFilter = true →
        outputLine colorOfJSON colorIsGreater cfg text = none)
    ∧ (cfg.logRegexp = none → colorIsGreater (colorOfJSON text) cfg.colorFilter = false →
        outputLine colorOfJSON colorIsGreater cfg text
          = some (.plain text (colorOfJSON text)))
    ∧ outputLog colorOfJSON colorIsGreater cfg lines
        = lines.filterMap (outputLine colorOfJSON colorIsGreater cfg) :=
  ⟨outputLine_isSome_iff colorOfJSON colorIsGreater cfg text,
    outputLine_threshold_drops colorOfJSON colorIsGreater cfg text,
    outputLine_no_pattern colorOfJSON colorIsGreater cfg text,
    rfl⟩

/-- C6 (witness): the pipeline theorem applied to a concrete instance with a
permissive threshold and no pattern: the line survives and is emitted as a
plain formatted line. -/
theorem c6_filter_pipeline_witness :
    outputLine (fun _ => true) (fun _ _ => false)
        (⟨none, none, false⟩ : LogFilterCfg Bool) "hello"
      = some (.plain "hello" true) :=
  (c6_filter_pipeline (fun _ => true) (fun _ _ => false)
      (⟨none, none, false⟩ : LogFilterCfg Bool) "hello" []).2.2.1 rfl rfl

/-- C7: reconcile error semantics.  Both entry points return an error exactly
when establishing the pod watch failed (and the log variant wraps it as
`watch pods: ...` while a successful run returns nil whatever the session
bodies did, including failing ones); an individual session failure is
reported (its id is appended to the error reports) without affecting the
run's result. -/
theorem c7_reconcile_error_semantics (cfg : LogCfg) (w : Except String (List Event))
    (steps : List LogStep) (w2 : Except String (List Event)) (steps2 : List PFStep)
    (s : LState) (sid : Nat) (x : LogSession) (t : PFState) (sid2 : Nat) (y : PFSession)
    (hx : s.sessions.find? (logFinishPred sid) = some x)
    (hy : t.sessions.find? (pfFinishPred sid2) = some y)
    (hp : t.panicked = false) :
    isOkE (logReconcile cfg w steps) = isOkE w
    ∧ isOkE (pfReconcile w2 steps2) = isOkE w2
    ∧ (∀ e, w = .error e → logReconcile cfg w steps = .error ("watch pods: " ++ e))
    ∧ (logStep cfg s (.finish sid true)).errReports = s.errReports ++ [sid]
    ∧ (pfStep t (.finish sid2 true)).errReports = t.errReports ++ [sid2] := by
  refine ⟨?_, ?_, ?_, ?_, ?_⟩
  · cases w <;> rfl
  · cases w2 <;> rfl
  · intro e he
    rw [he]
    rfl
  · simp [logStep, hx]
  · simp [pfStep, hp, hy]

/-- C7 (witness): the error-semantics theorem applied to a failed watch and
states holding one unfinished session each: a failed log session is reported
in the error list. -/
theorem c7_reconcile_error_semantics_witness :
    (⟨[], [], [⟨0, 1, false, .spawned, false⟩], [], 1, .looping⟩ : LState).sessions.find?
        (logFinishPred 0) = some ⟨0, 1, false, .spawned, false⟩
    ∧ (logStep cfg0 (⟨[], [], [⟨0, 1, false, .spawned, false⟩], [], 1, .looping⟩ : LState)
        (.finish 0 true)).errReports
      = (⟨[], [], [⟨0, 1, false, .spawned, false⟩], [], 1, .looping⟩ : LState).errReports ++ [0] :=
  ⟨by decide,
    (c7_reconcile_error_semantics cfg0 (.error "boom") [] (.ok []) []
      (⟨[], [], [⟨0, 1, false, .spawned, false⟩], [], 1, .looping⟩ : LState) 0
      ⟨0, 1, false, .spawned, false⟩
      (⟨[], [], [], [⟨0, 1, false⟩], [], 1, false, .looping⟩ : PFState) 0 ⟨0, 1, false⟩
      (by decide) (by decide) rfl).2.2.2.1⟩

/-- C8: session cleanup atomicity of the forwarding session bodies.  On every
exit path the body deregisters exactly the backends it registered and its
deferred map delete is the final effect; a body that fails at port allocation
never touches the pool; the older body (no pool) also always ends with the
deferred delete. -/
theorem c8_session_cleanup (uid : Nat) (podName : String) (env envE : PFBodyEnv)
    (localPort remotePort : Nat) (lr : Option String) (e : String)
    (herr : envE.portResult = .error e) :
    addAddrs (handleForwardPodBody uid podName env)
      = removeAddrs (handleForwardPodBody uid podName env)
    ∧ (handleForwardPodBody uid podName env).getLast? = some (.deleteUID uid)
    ∧ addAddrs (handleForwardPodBody uid podName envE) = []
    ∧ removeAddrs (handleForwardPodBody uid podName envE) = []
    ∧ addAddrs (handleForwardPodBodyOld uid podName localPort remotePort lr) = []
    ∧ (handleForwardPodBodyOld uid podName localPort remotePort lr).getLast?
        = some (.deleteUID uid) := by
  obtain ⟨pr, lres⟩ := env
  obtain ⟨prE, lresE⟩ := envE
  have herr' : prE = Except.error e := herr
  subst herr'
  refine ⟨?_, ?_, ?_, ?_, ?_, ?_⟩
  · cases pr <;> cases lres <;> rfl
  · cases pr <;> cases lres <;> rfl
  · rfl
  · rfl
  · cases lr <;> rfl
  · cases lr <;> rfl

/-- C8 (witness): the cleanup theorem applied to a successful-path body and a
port-allocation-failure body for pod `api` with UID 7. -/
theorem c8_session_cleanup_witness :
    (⟨.error "no port", none⟩ : PFBodyEnv).portResult = .error "no port"
    ∧ addAddrs (handleForwardPodBody 7 "api" ⟨.ok 4000, none⟩)
        = removeAddrs (handleForwardPodBody 7 "api" ⟨.ok 4000, none⟩) :=
  ⟨rfl,
    (c8_session_cleanup 7 "api" ⟨.ok 4000, none⟩ ⟨.error "no port", none⟩ 8080 80 none
      "no port" rfl).1⟩

/-- C10: an event whose object is not a pod is skipped entirely by both
reconcilers: the only state change is consuming the event, and the loop keeps
processing subsequent events (the run over the remaining steps continues from
the otherwise-unchanged state). -/
theorem c10_nonpod_event_skipped (s : PFState) (t : LState) (cfg : LogCfg)
    (e e2 : Event) (rest rest2 : List Event)
    (hs1 : s.panicked = false) (hs2 : s.phase = .looping) (hs3 : s.events = e :: rest)
    (he : e.obj = .notPod)
    (ht2 : t.phase = .looping) (ht3 : t.events = e2 :: rest2) (he2 : e2.obj = .notPod) :
    pfStep s .event = { s with events := rest }
    ∧ logStep cfg t .event = { t with events := rest2 }
    ∧ (∀ more, pfRun s (.event :: more) = pfRun { s with events := rest } more)
    ∧ (∀ more2, logRun cfg t (.event :: more2) = logRun cfg { t with events := rest2 } more2) := by
  have h1 : pfStep s .event = { s with events := rest } := by
    have hred : pfStep s .event = pfProcessEvent { s with events := rest } e := by
      simp [pfStep, hs1, hs2, hs3]
    rw [hred]
    rcases e with ⟨k, obj⟩
    cases obj with
    | pod p => exact EventObj.noConfusion he
    | notPod => rfl
  have h2 : logStep cfg t .event = { t with events := rest2 } := by
    have hred : logStep cfg t .event = logProcessEvent cfg { t with events := rest2 } e2 := by
      simp [logStep, ht2, ht3]
    rw [hred]
    rcases e2 with ⟨k, obj⟩
    cases obj with
    | pod p => exact EventObj.noConfusion he2
    | notPod => rfl
  refine ⟨h1, h2, ?_, ?_⟩
  · intro more
    rw [pfRun, List.foldl_cons, ← h1]
    rfl
  · intro more2
    rw [logRun, List.foldl_cons, ← h2]
    rfl

/-- C10 (witness): the skip theorem applied to initial states whose first
event carries a non-pod object: processing it just drops the event. -/
theorem c10_nonpod_event_skipped_witness :
    (pfInit [⟨.added, .notPod⟩]).events = [(⟨.added, .notPod⟩ : Event)]
    ∧ pfStep (pfInit [⟨.added, .notPod⟩]) .event = { pfInit [⟨.added, .notPod⟩] with events := [] } :=
  ⟨rfl,
    (c10_nonpod_event_skipped (pfInit [⟨.added, .notPod⟩]) (logInit [⟨.added, .notPod⟩]) cfg0
      ⟨.added, .notPod⟩ ⟨.added, .notPod⟩ [] []
      rfl rfl rfl rfl rfl rfl rfl).1⟩

end Kmux
